import Mathlib

/-!
Shallow embedding of qTox `src/chatlog/textformatter.cpp`.

Strings are modelled as `List Char` (one entry per Unicode code point; Qt works
on UTF-16 code units, which agrees with code points outside the astral planes,
and none of the patterns involved can split a surrogate pair).  The Qt regular
expressions of the source are embedded as dedicated matcher functions whose
behaviour follows PCRE2 leftmost-match / backtracking semantics for the
concrete patterns of the source, as explained at each definition.
-/

namespace TextFormatter

/-- PCRE2 `\s` without `PCRE2_UCP` (the URL patterns are compiled without
`UseUnicodePropertiesOption`): space, `\t`, `\n`, `\v`, `\f`, `\r`. -/
def isSpaceAscii (c : Char) : Bool :=
  c = ' ' || c = '\t' || c = '\n' || c = '\x0B' || c = '\x0C' || c = '\r'

/-- PCRE2 `\s` with `PCRE2_UCP` (the markdown patterns are compiled with
`UseUnicodePropertiesOption`): the Unicode `White_Space` code points. -/
def isSpaceUcp (c : Char) : Bool :=
  isSpaceAscii c || c = '\u0085' || c = '\u00A0' || c = '\u1680' ||
  ('\u2000' ≤ c && c ≤ '\u200A') || c = '\u2028' || c = '\u2029' ||
  c = '\u202F' || c = '\u205F' || c = '\u3000'

/-- PCRE2 `\w` without `PCRE2_UCP`: ASCII letters, digits and underscore. -/
def isWordChar (c : Char) : Bool :=
  c.isAlpha || c.isDigit || c = '_'

/-- `[a-zA-Z0-9]` of the source's `TAG_PATTERN`. -/
def isCppAlnum (c : Char) : Bool :=
  c.isAlpha || c.isDigit

/-- The backtick character, `U+0060`. -/
def btChar : Char := Char.ofNat 96

/-- `QString::replace(pos, n, after)`: remove `n` code units at `pos` and
insert `after` there (clamped at the string bounds, as Qt clamps). -/
def listReplace (s : List Char) (pos n : Nat) (ins : List Char) : List Char :=
  s.take pos ++ ins ++ s.drop (pos + n)

/-- `QString::arg(a)` for a template whose only place markers are literal
`%1` occurrences: each `%1` is replaced by `v`; the inserted text is not
rescanned (Qt builds the result in a single pass over the template). -/
def argSubst (t v : List Char) : List Char :=
  match t with
  | [] => []
  | '%' :: '1' :: rest => v ++ argSubst rest v
  | c :: rest => c :: argSubst rest v

/-! ### Tag-Intersection Checker

`TAG_PATTERN` is `(?<=<)/?[a-zA-Z0-9]+(?=>)`: an optional `/` and a run of
ASCII letters/digits, with `<` before (lookbehind) and `>` after (lookahead).
Because the text of a token consists only of `/` and alphanumerics, a token
never contains `<`; hence no `<` inside an already-found token can start a
further token, and counting, at every position of the string, the tokens that
begin right after a `<` at that position yields exactly the matches of
`QRegularExpressionMatchIterator` (non-overlapping, left to right). -/

/-- `alnumThenGt cs` holds when `cs` begins with a non-empty run of
`[a-zA-Z0-9]` whose maximal extent is immediately followed by `>`.  (In the
regex the greedy run backtracks under the `(?=>)` lookahead, but since `>` is
not alphanumeric the only viable stop is the end of the maximal run, which is
the same as: some alphanumeric prefix is followed by `>`.) -/
def alnumThenGt : List Char → Bool
  | [] => false
  | c :: rest => isCppAlnum c && (rest.head? = some '>' || alnumThenGt rest)

/-- Try to parse a `TAG_PATTERN` token at the position just after a `<`.
`some true` is a closing token (first captured char `/`), `some false` an
opening token.  If the leading char is `/` the slash-less alternative of `/?`
cannot succeed either (a `/` is not alphanumeric), so the first branch is
exhaustive there. -/
def tagTokenAt (cs : List Char) : Option Bool :=
  match cs with
  | '/' :: rest => if alnumThenGt rest then some true else none
  | _ => if alnumThenGt cs then some false else none

/-- The two counters of `isTagIntersection`: `(openingTagCount,
closingTagCount)` accumulated over every token of `TAG_PATTERN`. -/
def tagCounts : List Char → Nat × Nat
  | [] => (0, 0)
  | c :: rest =>
    let p := tagCounts rest
    if c = '<' then
      match tagTokenAt rest with
      | some true => (p.1, p.2 + 1)
      | some false => (p.1 + 1, p.2)
      | none => p
    else p

/-- `isTagIntersection` on `List Char`: true iff the opening- and closing-token
counts differ. -/
def isTagIntersectionL (str : List Char) : Bool :=
  (tagCounts str).1 ≠ (tagCounts str).2

/-- `static bool isTagIntersection(const QString& str)`. -/
def isTagIntersection (str : String) : Bool :=
  isTagIntersectionL str.toList

/-! ### Markdown pattern matchers

Every markdown pattern starts with `(?<=^|[\s\n])` (previous character absent
or whitespace; `\n` is already in `\s`) and ends with `(?=$|[\s\n])` (next
character absent or whitespace).  A matcher receives the character preceding
the attempted match position (`none` at the start of the string) and the
suffix starting at that position; on success it returns
`(full match text, capture group 1, remainder after the match)`. -/

/-- The lookbehind `(?<=^|[\s\n])`. -/
def lookbehindOk (prev : Option Char) : Bool :=
  match prev with
  | none => true
  | some p => isSpaceUcp p

/-- The lookahead `(?=$|[\s\n])` after the closing delimiter. -/
def closeAheadOk (rest : List Char) : Bool :=
  match rest with
  | [] => true
  | c :: _ => isSpaceUcp c

/-- Non-greedy search for the closing delimiter of `SINGLE_SIGN_PATTERN`
(and of `SINGLE_SLASH_PATTERN`, which is textually `SINGLE_SIGN_PATTERN`
with `%1 = /`): the inner group `([^%1\n]+?)` cannot contain the delimiter,
so the first delimiter occurrence is the only candidate closing position; it
must satisfy `(?<!\s)` (accumulated last char not whitespace) and the final
lookahead, else the whole attempt fails.  `acc` holds the inner characters in
reverse. -/
def singleScan (d : Char) : List Char → List Char → Option (List Char × List Char)
  | _, [] => none
  | acc, c :: rest =>
    if c = d then
      match acc with
      | [] => none
      | a :: _ =>
        if ¬ isSpaceUcp a ∧ closeAheadOk rest then some (acc.reverse, rest) else none
    else if c = '\n' then none
    else singleScan d (c :: acc) rest

/-- `SINGLE_SIGN_PATTERN` instantiated at delimiter `d`:
`(?<=^|[\s\n]) [d] (?!\s) ([^d\n]+?) (?<!\s) [d] (?=$|[\s\n])`.
The opening delimiter must be followed by at least one character (the inner
group is non-empty), and that character must not be whitespace (`(?!\s)`). -/
def singleSignRun (d : Char) (prev : Option Char) (cs : List Char) :
    Option (List Char × List Char × List Char) :=
  if lookbehindOk prev then
    match cs with
    | c :: c1 :: rest =>
      if c = d ∧ ¬ isSpaceUcp c1 then
        match singleScan d [] (c1 :: rest) with
        | some (g, after) => some (d :: (g ++ [d]), g, after)
        | none => none
      else none
    | _ => none
  else none

/-- First inner character non-empty and the `(?<!\s)` lookbehind before the
closing double delimiter: the accumulated inner text (reversed in `acc`) is
non-empty and its last character is not whitespace. -/
def accLastOk (acc : List Char) : Bool :=
  match acc with
  | [] => false
  | a :: _ => ¬ isSpaceUcp a

/-- Non-greedy search for the closing `[d]{2}` of `DOUBLE_SIGN_PATTERN`.  The
inner group `([^\n]+?)` may contain `d`, so when a candidate closing pair
fails its `(?<!\s)`/`(?=$|[\s\n])` conditions the engine extends the inner
text by one character and retries at the next position. -/
def doubleScan (d : Char) : List Char → List Char → Option (List Char × List Char)
  | acc, c0 :: c1 :: rest =>
    if c0 = d ∧ c1 = d ∧ accLastOk acc ∧ closeAheadOk rest then
      some (acc.reverse, rest)
    else if c0 = '\n' then none
    else doubleScan d (c0 :: acc) (c1 :: rest)
  | _, _ => none

/-- `DOUBLE_SIGN_PATTERN` instantiated at delimiter `d`:
`(?<=^|[\s\n]) [d]{2} (?!\s) ([^\n]+?) (?<!\s) [d]{2} (?=$|[\s\n])`. -/
def doubleSignRun (d : Char) (prev : Option Char) (cs : List Char) :
    Option (List Char × List Char × List Char) :=
  if lookbehindOk prev then
    match cs with
    | c0 :: c1 :: c2 :: rest =>
      if c0 = d ∧ c1 = d ∧ ¬ isSpaceUcp c2 then
        match doubleScan d [] (c2 :: rest) with
        | some (g, after) => some (d :: d :: (g ++ [d, d]), g, after)
        | none => none
      else none
    | _ => none
  else none

/-- Inner text non-empty and its last character not a backtick (the `(?<!`)`
lookbehind before the closing fence). -/
def accLastNotBt (acc : List Char) : Bool :=
  match acc with
  | [] => false
  | a :: _ => a ≠ btChar

/-- Non-greedy search for the closing fence of `MULTILINE_CODE`: the inner
group `((.|\n)+?)` admits every character (including newlines and backticks),
so a failed closing candidate extends the inner text by one character. -/
def codeScan : List Char → List Char → Option (List Char × List Char)
  | acc, c0 :: c1 :: c2 :: rest =>
    if c0 = btChar ∧ c1 = btChar ∧ c2 = btChar ∧ accLastNotBt acc ∧ closeAheadOk rest then
      some (acc.reverse, rest)
    else codeScan (c0 :: acc) (c1 :: c2 :: rest)
  | _, _ => none

/-- `MULTILINE_CODE`:
`` (?<=^|[\s\n]) ``` (?!`) ((.|\n)+?) (?<!`) ``` (?=$|[\s\n]) ``. -/
def codeRun (prev : Option Char) (cs : List Char) :
    Option (List Char × List Char × List Char) :=
  if lookbehindOk prev then
    match cs with
    | c0 :: c1 :: c2 :: c3 :: rest =>
      if c0 = btChar ∧ c1 = btChar ∧ c2 = btChar ∧ c3 ≠ btChar then
        match codeScan [] (c3 :: rest) with
        | some (g, after) =>
          some (btChar :: btChar :: btChar :: (g ++ [btChar, btChar, btChar]), g, after)
        | none => none
      else none
    | _ => none
  else none

/-! ### Global matching

`QRegularExpressionMatchIterator` produces the non-overlapping matches from
left to right: at each position the engine attempts a match (the leftmost one
wins) and scanning resumes at the end of a successful match.  All patterns
here match at least one character, so no empty-match handling is needed.
`scanAll` carries a fuel argument to make the recursion structural; the fuel
is instantiated with `length + 1`, which the scan can never exhaust since
every step consumes at least one character of the suffix. -/

/-- A pattern matcher: previous character and current suffix to optional
`(full match, capture group 1, remaining suffix)`. -/
structure Matcher where
  run : Option Char → List Char → Option (List Char × List Char × List Char)

/-- One match found while scanning a snapshot string: its start position in
the snapshot, the full matched text (`captured(0)`) and the first capture
group (`captured(1)`; for the URL patterns, which use `captured()` only, the
full text is repeated here). -/
structure UMatch where
  pos : Nat
  full : List Char
  grp : List Char
deriving DecidableEq, Repr

/-- All matches of `M` over the suffix `cs` beginning at absolute position
`pos`, `prev` being the character just before `cs` in the snapshot. -/
def scanAll (M : Matcher) : Nat → Option Char → Nat → List Char → List UMatch
  | 0, _, _, _ => []
  | _ + 1, _, _, [] => []
  | fuel + 1, prev, pos, c :: rest =>
    match M.run prev (c :: rest) with
    | some (f, g, r) =>
      ⟨pos, f, g⟩ :: scanAll M fuel f.getLast? (pos + f.length) r
    | none => scanAll M fuel (some c) (pos + 1) rest

/-! ### The markdown rule table `REGEX_TO_WRAPPER` -/

def wrapI : String := "<i>%1</i>"
def wrapB : String := "<b>%1</b>"
def wrapU : String := "<u>%1</u>"
def wrapS : String := "<s>%1</s>"
def wrapCode : String := "<font color=#595959><code>%1</code></font>"

/-- The ordered `REGEX_TO_WRAPPER[]` table.  The first entry embeds
`SINGLE_SLASH_PATTERN`, whose text is exactly `SINGLE_SIGN_PATTERN` with the
delimiter class `[/]`, so it shares `singleSignRun`. -/
def REGEX_TO_WRAPPER : List (Matcher × List Char) :=
  [ (⟨singleSignRun '/'⟩, wrapI.toList),
    (⟨singleSignRun '*'⟩, wrapB.toList),
    (⟨singleSignRun '_'⟩, wrapU.toList),
    (⟨singleSignRun '~'⟩, wrapS.toList),
    (⟨singleSignRun btChar⟩, wrapCode.toList),
    (⟨doubleSignRun '*'⟩, wrapB.toList),
    (⟨doubleSignRun '/'⟩, wrapI.toList),
    (⟨doubleSignRun '_'⟩, wrapU.toList),
    (⟨doubleSignRun '~'⟩, wrapS.toList),
    (⟨codeRun⟩, wrapCode.toList) ]

/-! ### `applyMarkdown` -/

/-- The replacement taken for an accepted markdown match: wrap the captured
text (`captured(!showFormattingSymbols)`, i.e. the full match when formatting
symbols are kept, the inner group when they are stripped) in the pattern's
wrapper, splice it in at the offset-corrected start position, and grow the
offset by the signed length difference. -/
def mdReplaceStep (wrapper : List Char) (showFormattingSymbols : Bool)
    (st : List Char × Int) (m : UMatch) : List Char × Int :=
  let captured := if showFormattingSymbols then m.full else m.grp
  let length := m.full.length
  let wrappedText := argSubst wrapper captured
  let startPos := (m.pos : Int) + st.2
  (listReplace st.1 startPos.toNat length wrappedText,
   st.2 + ((wrappedText.length : Int) - (length : Int)))

/-- The body of the inner `while (iter.hasNext())` loop of `applyMarkdown`:
a match whose captured text trips `isTagIntersection` is skipped (state
unchanged), every other match is replaced. -/
def mdStep (wrapper : List Char) (showFormattingSymbols : Bool)
    (st : List Char × Int) (m : UMatch) : List Char × Int :=
  let captured := if showFormattingSymbols then m.full else m.grp
  if isTagIntersectionL captured then st
  else mdReplaceStep wrapper showFormattingSymbols st m

/-- One pattern's pass of `applyMarkdown`: the matches are produced from the
snapshot that `result` holds when `globalMatch` is called (Qt's iterator keeps
that snapshot while `result` is mutated), and the replacements are applied to
the mutating string with the accumulated offset. -/
def mdPass (showFormattingSymbols : Bool) (result : List Char)
    (pair : Matcher × List Char) : List Char :=
  let ms := scanAll pair.1 (result.length + 1) none 0 result
  (ms.foldl (mdStep pair.2 showFormattingSymbols) (result, (0 : Int))).1

/-- `QString applyMarkdown(const QString& message, bool showFormattingSymbols)`
on `List Char`. -/
def applyMarkdownL (message : List Char) (showFormattingSymbols : Bool) : List Char :=
  REGEX_TO_WRAPPER.foldl (mdPass showFormattingSymbols) message

/-- `QString applyMarkdown(const QString& message, bool showFormattingSymbols)`. -/
def applyMarkdown (message : String) (showFormattingSymbols : Bool) : String :=
  ⟨applyMarkdownL message.toList showFormattingSymbols⟩

/-! ### URL patterns

The URL regexes are compiled without extra options, so `\s`, `\S`, `\w`, `\b`
have their ASCII meanings.  Every pattern begins with `\b` followed by a word
character, so the boundary holds exactly when the previous character is absent
or a non-word character. -/

/-- `\b` before a pattern whose first character is a word character. -/
def wordBoundaryOk (prev : Option Char) : Bool :=
  match prev with
  | none => true
  | some p => ¬ isWordChar p

/-- `URL_PATH_PATTERN`, the class `[\w:/?#\[\]@!$&'{}*+,;.~%=-]`. -/
def isPathChar (c : Char) : Bool :=
  isWordChar c || c = ':' || c = '/' || c = '?' || c = '#' || c = '[' || c = ']' ||
  c = '@' || c = '!' || c = '$' || c = '&' || c = '\'' || c = '{' || c = '}' ||
  c = '*' || c = '+' || c = ',' || c = ';' || c = '.' || c = '~' || c = '%' ||
  c = '=' || c = '-'

/-- `\S` for the URL patterns (ASCII whitespace complement). -/
def isNonSpace (c : Char) : Bool := ¬ isSpaceAscii c

/-- Literal prefix followed by a greedy non-empty run of `URL_PATH_PATTERN`
characters (no trailing context, so the greedy run is the maximal one). -/
def prefThenPath (pre cs : List Char) : Option (List Char × List Char × List Char) :=
  if pre.isPrefixOf cs then
    let rest := cs.drop pre.length
    let run := rest.takeWhile isPathChar
    if run = [] then none
    else some (pre ++ run, pre ++ run, rest.dropWhile isPathChar)
  else none

/-- `\b(www\.|((http[s]?)|ftp)://)%1` with `%1 = URL_PATH_PATTERN+`.  The
alternatives are attempted in the pattern's order; their first characters
differ pairwise except for the two `http` forms, where the greedy `[s]?`
tries `https` first. -/
def wwwHttpFtpRun (prev : Option Char) (cs : List Char) :
    Option (List Char × List Char × List Char) :=
  if wordBoundaryOk prev then
    (prefThenPath ['w', 'w', 'w', '.'] cs).orElse fun _ =>
    (prefThenPath ['h', 't', 't', 'p', 's', ':', '/', '/'] cs).orElse fun _ =>
    (prefThenPath ['h', 't', 't', 'p', ':', '/', '/'] cs).orElse fun _ =>
    prefThenPath ['f', 't', 'p', ':', '/', '/'] cs
  else none

/-- The class `[\S| ]` of the `file`/`smb` pattern: any non-whitespace, the
bar, or a space; `|` is already non-whitespace, so this is `\S` plus space. -/
def isFileChar (c : Char) : Bool := isNonSpace c || c = ' '

/-- Literal prefix followed by a greedy, possibly empty run of
`[\S| ]` characters. -/
def prefThenFile (pre cs : List Char) : Option (List Char × List Char × List Char) :=
  if pre.isPrefixOf cs then
    let rest := cs.drop pre.length
    let run := rest.takeWhile isFileChar
    some (pre ++ run, pre ++ run, rest.dropWhile isFileChar)
  else none

/-- `\b(file|smb)://([\S| ]*)`. -/
def fileSmbRun (prev : Option Char) (cs : List Char) :
    Option (List Char × List Char × List Char) :=
  if wordBoundaryOk prev then
    (prefThenFile ['f', 'i', 'l', 'e', ':', '/', '/'] cs).orElse fun _ =>
    prefThenFile ['s', 'm', 'b', ':', '/', '/'] cs
  else none

/-- The class `[a-zA-Z\\d]` of the Tox-ID pattern.  In the raw string
`R"(\btox:[a-zA-Z\\d]{76})"` the `\\` is a regex-escaped literal backslash,
so the class holds the ASCII letters, the backslash, and the (already
alphabetic) letter `d` — digits are NOT in the class. -/
def toxIdChar (c : Char) : Bool := c.isAlpha || c = '\\'

/-- `\btox:[a-zA-Z\\d]{76}`: the literal `tox:` followed by exactly 76
characters of the class above. -/
def toxIdRun (prev : Option Char) (cs : List Char) :
    Option (List Char × List Char × List Char) :=
  if wordBoundaryOk prev then
    if List.isPrefixOf ['t', 'o', 'x', ':'] cs then
      let rest := cs.drop 4
      let body := rest.take 76
      if body.length = 76 ∧ body.all toxIdChar then
        some (['t', 'o', 'x', ':'] ++ body, ['t', 'o', 'x', ':'] ++ body, rest.drop 76)
      else none
    else none
  else none

/-- `x` occurs in `cs` at some position other than the first and the last. -/
def hasMidChar (x : Char) (cs : List Char) : Bool :=
  ((cs.drop 1).dropLast).contains x

/-- Backtracking success condition of `\S+@\S+\.\S+` over a maximal
non-whitespace run: some `@` occurs after at least one character, and after
that `@` some `.` occurs that has at least one character on each side (the
engine tries the latest such positions first, but the overall match, which is
always the entire run because the final `\S+` is greedy with no trailing
context, exists exactly when such positions exist at all). -/
def atDotSearch : List Char → Bool
  | [] => false
  | c :: rest => (c = '@' && hasMidChar '.' rest) || atDotSearch rest

/-- `\S+` before the `@` is non-empty: search for the `@` from the second
character on. -/
def mailtoBodyOk : List Char → Bool
  | [] => false
  | _ :: rest => atDotSearch rest

/-- `\bmailto:\S+@\S+\.\S+`. -/
def mailtoRun (prev : Option Char) (cs : List Char) :
    Option (List Char × List Char × List Char) :=
  if wordBoundaryOk prev then
    if List.isPrefixOf ['m', 'a', 'i', 'l', 't', 'o', ':'] cs then
      let rest := cs.drop 7
      let run := rest.takeWhile isNonSpace
      if mailtoBodyOk run then
        some (['m', 'a', 'i', 'l', 't', 'o', ':'] ++ run,
              ['m', 'a', 'i', 'l', 't', 'o', ':'] ++ run, rest.dropWhile isNonSpace)
      else none
    else none
  else none

/-- `\btox:\S+@\S+`: over the maximal non-whitespace run after `tox:`, some
`@` must occur with at least one character on each side; the match is the
entire run. -/
def toxUserRun (prev : Option Char) (cs : List Char) :
    Option (List Char × List Char × List Char) :=
  if wordBoundaryOk prev then
    if List.isPrefixOf ['t', 'o', 'x', ':'] cs then
      let rest := cs.drop 4
      let run := rest.takeWhile isNonSpace
      if hasMidChar '@' run then
        some (['t', 'o', 'x', ':'] ++ run, ['t', 'o', 'x', ':'] ++ run,
              rest.dropWhile isNonSpace)
      else none
    else none
  else none

/-- The ordered `URL_PATTERNS[]` array. -/
def URL_PATTERNS : List Matcher :=
  [⟨wwwHttpFtpRun⟩, ⟨fileSmbRun⟩, ⟨toxIdRun⟩, ⟨mailtoRun⟩, ⟨toxUserRun⟩]

/-- `HREF_WRAPPER`, `<a href="%1">%1</a>`. -/
def HREF_WRAPPER : String := "<a href=\"%1\">%1</a>"

/-- The body of the inner `while (iter.hasNext())` loop of `highlightURL`:
the match is wrapped via `HREF_WRAPPER` and spliced in at the
offset-corrected position; the offset is then recomputed as the difference
between the current length and `startLength`, the length the string had at
the start of this pattern's pass. -/
def urlStep (startLength : Int) (st : List Char × Int) (m : UMatch) : List Char × Int :=
  let wrappedURL := argSubst HREF_WRAPPER.toList m.full
  let startPos := (m.pos : Int) + st.2
  let res := listReplace st.1 startPos.toNat m.full.length wrappedURL
  (res, (res.length : Int) - startLength)

/-- One pattern's pass of `highlightURL`: matches come from the snapshot
taken when `globalMatch` was called. -/
def urlPass (result : List Char) (exp : Matcher) : List Char :=
  let ms := scanAll exp (result.length + 1) none 0 result
  (ms.foldl (urlStep (result.length : Int)) (result, (0 : Int))).1

/-- `QString highlightURL(const QString& message)` on `List Char`. -/
def highlightURLL (message : List Char) : List Char :=
  URL_PATTERNS.foldl urlPass message

/-- `QString highlightURL(const QString& message)`. -/
def highlightURL (message : String) : String :=
  ⟨highlightURLL message.toList⟩

/-! ### Declarative token counting

A specification-level reformulation of the Tag-Intersection Checker, used to
state that `isTagIntersection` counts exactly the `TAG_PATTERN` tokens: a
token begins at each position whose character is `<` and is followed by an
optional `/` and a run of letters/digits ending right before a `>`. -/

/-- All suffixes of a list, longest first. -/
def suffixes : List Char → List (List Char)
  | [] => [[]]
  | c :: rest => (c :: rest) :: suffixes rest

/-- The suffix begins with `<` immediately followed by an opening tag-name
token (no `/` prefix). -/
def isOpeningTokenSuffix (t : List Char) : Bool :=
  match t with
  | c :: u => c = '<' && tagTokenAt u == some false
  | [] => false

/-- The suffix begins with `<` immediately followed by a closing tag-name
token (`/` prefix). -/
def isClosingTokenSuffix (t : List Char) : Bool :=
  match t with
  | c :: u => c = '<' && tagTokenAt u == some true
  | [] => false

/-- Number of positions of `s` at which an opening tag-name token begins. -/
def openingTokenCount (s : List Char) : Nat :=
  (suffixes s).countP isOpeningTokenSuffix

/-- Number of positions of `s` at which a closing tag-name token begins. -/
def closingTokenCount (s : List Char) : Nat :=
  (suffixes s).countP isClosingTokenSuffix

/-! ### Concrete test vectors -/

def exTagless : String := "*a <b c*"
def exTaglessOut : String := "<b>a <b c</b>"
def exTagged : String := "*a <b> c*"
def toxDigitsMsg : String := "tox:" ++ String.mk (List.replicate 76 '0')
def toxLettersMsg : String := "tox:" ++ String.mk (List.replicate 76 'A')
def toxLettersWrapped : String :=
  "<a href=\"" ++ toxLettersMsg ++ "\">" ++ toxLettersMsg ++ "</a>"
def exBold : String := "*bold*"
def exBoldPlain : String := "<b>bold</b>"
def exBoldKept : String := "<b>*bold*</b>"
def exItU : String := "/it/ and _u_"
def exItUOut : String := "<i>it</i> and <u>u</u>"
def exAdj : String := "a*bold*b"
def exWww : String := "www.a"
def exPlain : String := "hello world"

/-! ## Helper lemmas -/

/-- Replacing `n` characters by at least `n` characters never shortens. -/
theorem listReplace_length_ge (s ins : List Char) (pos n : Nat) (h : n ≤ ins.length) :
    s.length ≤ (listReplace s pos n ins).length := by
  simp only [listReplace, List.length_append, List.length_take, List.length_drop]
  omega

theorem argSubst_wrapI (v : List Char) :
    argSubst wrapI.toList v = ('<' :: 'i' :: '>' :: []) ++ (v ++ ('<' :: '/' :: 'i' :: '>' :: [])) := rfl

theorem argSubst_wrapB (v : List Char) :
    argSubst wrapB.toList v = ('<' :: 'b' :: '>' :: []) ++ (v ++ ('<' :: '/' :: 'b' :: '>' :: [])) := rfl

theorem argSubst_wrapU (v : List Char) :
    argSubst wrapU.toList v = ('<' :: 'u' :: '>' :: []) ++ (v ++ ('<' :: '/' :: 'u' :: '>' :: [])) := rfl

theorem argSubst_wrapS (v : List Char) :
    argSubst wrapS.toList v = ('<' :: 's' :: '>' :: []) ++ (v ++ ('<' :: '/' :: 's' :: '>' :: [])) := rfl

theorem argSubst_wrapCode (v : List Char) :
    argSubst wrapCode.toList v =
      ('<' :: 'f' :: 'o' :: 'n' :: 't' :: ' ' :: 'c' :: 'o' :: 'l' :: 'o' :: 'r' :: '=' :: '#' :: '5' :: '9' :: '5' :: '9' :: '5' :: '9' :: '>' :: '<' :: 'c' :: 'o' :: 'd' :: 'e' :: '>' ::[]) ++
        (v ++ ('<' :: '/' :: 'c' :: 'o' :: 'd' :: 'e' :: '>' :: '<' :: '/' :: 'f' :: 'o' :: 'n' :: 't' :: '>' ::[])) := rfl

theorem argSubst_wrapI_length (v : List Char) : (argSubst wrapI.toList v).length = v.length + 7 := by
  rw [argSubst_wrapI]; simp

theorem argSubst_wrapB_length (v : List Char) : (argSubst wrapB.toList v).length = v.length + 7 := by
  rw [argSubst_wrapB]; simp

theorem argSubst_wrapU_length (v : List Char) : (argSubst wrapU.toList v).length = v.length + 7 := by
  rw [argSubst_wrapU]; simp

theorem argSubst_wrapS_length (v : List Char) : (argSubst wrapS.toList v).length = v.length + 7 := by
  rw [argSubst_wrapS]; simp

theorem argSubst_wrapCode_length (v : List Char) :
    (argSubst wrapCode.toList v).length = v.length + 40 := by
  rw [argSubst_wrapCode]; simp

theorem argSubst_href (v : List Char) :
    argSubst HREF_WRAPPER.toList v =
      ('<' :: 'a' :: ' ' :: 'h' :: 'r' :: 'e' :: 'f' :: '=' :: '"' ::[]) ++
        (v ++ ('"' :: '>' :: (v ++ ('<' :: '/' :: 'a' :: '>' ::[])))) := rfl

theorem argSubst_href_length (v : List Char) :
    (argSubst HREF_WRAPPER.toList v).length = v.length + v.length + 15 := by
  rw [argSubst_href]; simp; omega

/-- A successful `singleScan` ends at a closing delimiter that satisfies the
final lookahead. -/
theorem singleScan_some_closeAhead (d : Char) :
    ∀ (cs acc g r : List Char), singleScan d acc cs = some (g, r) → closeAheadOk r = true := by
  intro cs
  induction cs with
  | nil => intro acc g r h; simp [singleScan] at h
  | cons c rest ih =>
    intro acc g r h
    simp only [singleScan] at h
    split at h
    · cases acc with
      | nil => simp at h
      | cons a t =>
        simp only [] at h
        split at h
        · rename_i hcond
          simp only [Option.some.injEq, Prod.mk.injEq] at h
          exact h.2 ▸ hcond.2
        · simp at h
    · split at h
      · simp at h
      · exact ih _ _ _ h

/-- A successful `doubleScan` ends at a closing pair that satisfies the final
lookahead. -/
theorem doubleScan_some_closeAhead (d : Char) :
    ∀ (cs acc g r : List Char), doubleScan d acc cs = some (g, r) → closeAheadOk r = true := by
  intro cs
  induction cs with
  | nil => intro acc g r h; simp [doubleScan] at h
  | cons c0 cs' ih =>
    intro acc g r h
    cases cs' with
    | nil => simp [doubleScan] at h
    | cons c1 rest =>
      simp only [doubleScan] at h
      split at h
      · rename_i hcond
        simp only [Option.some.injEq, Prod.mk.injEq] at h
        exact h.2 ▸ hcond.2.2.2
      · split at h
        · simp at h
        · exact ih _ _ _ h

/-- Shape of a successful single-delimiter match: the full text is the inner
group surrounded by one delimiter on each side, and the closing lookahead
holds on the remainder. -/
theorem singleSignRun_some {d : Char} {pc : Option Char} {cs f g r : List Char}
    (h : singleSignRun d pc cs = some (f, g, r)) :
    f = d :: (g ++ [d]) ∧ closeAheadOk r = true := by
  simp only [singleSignRun] at h
  split at h
  · split at h
    · split at h
      · split at h
        · rename_i heq
          simp only [Option.some.injEq, Prod.mk.injEq] at h
          obtain ⟨hf, hg, hr⟩ := h
          subst hg; subst hr
          exact ⟨hf.symm, singleScan_some_closeAhead d _ _ _ _ heq⟩
        · simp at h
      · simp at h
    · simp at h
  · simp at h

/-- Shape of a successful double-delimiter match. -/
theorem doubleSignRun_some {d : Char} {pc : Option Char} {cs f g r : List Char}
    (h : doubleSignRun d pc cs = some (f, g, r)) :
    f = d :: d :: (g ++ [d, d]) ∧ closeAheadOk r = true := by
  simp only [doubleSignRun] at h
  split at h
  · split at h
    · split at h
      · split at h
        · rename_i heq
          simp only [Option.some.injEq, Prod.mk.injEq] at h
          obtain ⟨hf, hg, hr⟩ := h
          subst hg; subst hr
          exact ⟨hf.symm, doubleScan_some_closeAhead d _ _ _ _ heq⟩
        · simp at h
      · simp at h
    · simp at h
  · simp at h

/-- Shape of a successful fenced-code match. -/
theorem codeRun_some {pc : Option Char} {cs f g r : List Char}
    (h : codeRun pc cs = some (f, g, r)) :
    f = btChar :: btChar :: btChar :: (g ++ [btChar, btChar, btChar]) := by
  simp only [codeRun] at h
  split at h
  · split at h
    · split at h
      · split at h
        · simp only [Option.some.injEq, Prod.mk.injEq] at h
          obtain ⟨hf, hg, -⟩ := h
          subst hg
          exact hf.symm
        · simp at h
      · simp at h
    · simp at h
  · simp at h

/-- Opening boundary rule: a single-delimiter pattern cannot match right
after a non-whitespace character. -/
theorem singleSignRun_prev_not_space (d pc : Char) (cs : List Char)
    (h : isSpaceUcp pc = false) : singleSignRun d (some pc) cs = none := by
  simp [singleSignRun, lookbehindOk, h]

/-- Opening boundary rule for double-delimiter patterns. -/
theorem doubleSignRun_prev_not_space (d pc : Char) (cs : List Char)
    (h : isSpaceUcp pc = false) : doubleSignRun d (some pc) cs = none := by
  simp [doubleSignRun, lookbehindOk, h]

/-- Opening boundary rule for the fenced-code pattern. -/
theorem codeRun_prev_not_space (pc : Char) (cs : List Char)
    (h : isSpaceUcp pc = false) : codeRun (some pc) cs = none := by
  simp [codeRun, lookbehindOk, h]

/-- Any per-match property guaranteed by the matcher holds for every match
the scan produces. -/
theorem scanAll_mem {M : Matcher} {P : List Char → List Char → Prop}
    (hM : ∀ pc cs f g r, M.run pc cs = some (f, g, r) → P f g) :
    ∀ (fuel : Nat) (pc : Option Char) (pos : Nat) (cs : List Char),
      ∀ m ∈ scanAll M fuel pc pos cs, P m.full m.grp := by
  intro fuel
  induction fuel with
  | zero => intro pc pos cs m hm; simp [scanAll] at hm
  | succ n ih =>
    intro pc pos cs m hm
    cases cs with
    | nil => simp [scanAll] at hm
    | cons c rest =>
      simp only [scanAll] at hm
      cases hr : M.run pc (c :: rest) with
      | none => rw [hr] at hm; exact ih _ _ _ _ hm
      | some t =>
        obtain ⟨f, g, r⟩ := t
        rw [hr] at hm
        simp only [List.mem_cons] at hm
        rcases hm with rfl | hm'
        · exact hM _ _ _ _ _ hr
        · exact ih _ _ _ _ hm'

/-- One markdown replacement (or skip) never shortens the string, provided
the wrapped text is at least as long as the replaced span. -/
theorem mdStep_length_ge (w : List Char) (b : Bool) (st : List Char × Int) (m : UMatch)
    (h : m.full.length ≤ (argSubst w (if b then m.full else m.grp)).length) :
    st.1.length ≤ (mdStep w b st m).1.length := by
  have hrep : st.1.length ≤ (mdReplaceStep w b st m).1.length := by
    simp only [mdReplaceStep]
    exact listReplace_length_ge _ _ _ _ h
  cases hT : isTagIntersectionL (if b then m.full else m.grp)
  · simp [mdStep, hT, hrep]
  · simp [mdStep, hT]

theorem foldl_mdStep_length_ge (w : List Char) (b : Bool) :
    ∀ (ms : List UMatch) (st : List Char × Int),
      (∀ m ∈ ms, m.full.length ≤ (argSubst w (if b then m.full else m.grp)).length) →
      st.1.length ≤ (ms.foldl (mdStep w b) st).1.length := by
  intro ms
  induction ms with
  | nil => intro st _; simp
  | cons m t ih =>
    intro st h
    simp only [List.foldl_cons]
    exact le_trans (mdStep_length_ge w b st m (h m (List.mem_cons_self m t)))
      (ih _ fun m' hm' => h m' (List.mem_cons_of_mem _ hm'))

theorem mdPass_length_ge (b : Bool) (s : List Char) (p : Matcher × List Char)
    (hp : ∀ pc cs f g r, p.1.run pc cs = some (f, g, r) →
      f.length ≤ (argSubst p.2 f).length ∧ f.length ≤ (argSubst p.2 g).length) :
    s.length ≤ (mdPass b s p).length := by
  have hms := scanAll_mem
    (P := fun f g => f.length ≤ (argSubst p.2 f).length ∧ f.length ≤ (argSubst p.2 g).length)
    hp (s.length + 1) none 0 s
  simp only [mdPass]
  exact foldl_mdStep_length_ge p.2 b _ (s, 0) fun m hm => by
    rcases hms m hm with ⟨h1, h2⟩
    cases b <;> simpa

theorem foldl_mdPass_length_ge (b : Bool) :
    ∀ (l : List (Matcher × List Char)) (s : List Char),
      (∀ p ∈ l, ∀ pc cs f g r, p.1.run pc cs = some (f, g, r) →
          f.length ≤ (argSubst p.2 f).length ∧ f.length ≤ (argSubst p.2 g).length) →
      s.length ≤ (l.foldl (mdPass b) s).length := by
  intro l
  induction l with
  | nil => intro s _; simp
  | cons p t ih =>
    intro s h
    simp only [List.foldl_cons]
    exact le_trans (mdPass_length_ge b s p (h p (List.mem_cons_self p t)))
      (ih _ fun p' hp' => h p' (List.mem_cons_of_mem _ hp'))

/-- A single-delimiter pair with a wrapper that adds `k ≥ 2` characters
always inserts at least as much as it removes. -/
theorem single_pair_ins_ok (d : Char) (w : List Char) (k : Nat) (hk : 2 ≤ k)
    (hw : ∀ v, (argSubst w v).length = v.length + k) :
    ∀ (pc : Option Char) (cs f g r : List Char), singleSignRun d pc cs = some (f, g, r) →
      f.length ≤ (argSubst w f).length ∧ f.length ≤ (argSubst w g).length := by
  intro pc cs f g r h
  obtain ⟨hf, -⟩ := singleSignRun_some h
  subst hf
  constructor
  · rw [hw]; omega
  · rw [hw]; simp; omega

/-- A double-delimiter pair with a wrapper that adds `k ≥ 4` characters
always inserts at least as much as it removes. -/
theorem double_pair_ins_ok (d : Char) (w : List Char) (k : Nat) (hk : 4 ≤ k)
    (hw : ∀ v, (argSubst w v).length = v.length + k) :
    ∀ (pc : Option Char) (cs f g r : List Char), doubleSignRun d pc cs = some (f, g, r) →
      f.length ≤ (argSubst w f).length ∧ f.length ≤ (argSubst w g).length := by
  intro pc cs f g r h
  obtain ⟨hf, -⟩ := doubleSignRun_some h
  subst hf
  constructor
  · rw [hw]; omega
  · rw [hw]; simp; omega

/-- The fenced-code pair (wrapper adds 40, delimiters take 6). -/
theorem code_pair_ins_ok :
    ∀ (pc : Option Char) (cs f g r : List Char), codeRun pc cs = some (f, g, r) →
      f.length ≤ (argSubst wrapCode.toList f).length ∧
      f.length ≤ (argSubst wrapCode.toList g).length := by
  intro pc cs f g r h
  have hf := codeRun_some h
  subst hf
  constructor
  · rw [argSubst_wrapCode_length]; omega
  · rw [argSubst_wrapCode_length]; simp

/-- One URL replacement never shortens the string: the wrapper inserts the
matched text twice plus 15 characters of markup. -/
theorem urlStep_length_ge (sl : Int) (st : List Char × Int) (m : UMatch) :
    st.1.length ≤ (urlStep sl st m).1.length := by
  simp only [urlStep]
  refine listReplace_length_ge _ _ _ _ ?_
  rw [argSubst_href_length]
  omega

theorem foldl_urlStep_length_ge (sl : Int) :
    ∀ (ms : List UMatch) (st : List Char × Int),
      st.1.length ≤ (ms.foldl (urlStep sl) st).1.length := by
  intro ms
  induction ms with
  | nil => intro st; simp
  | cons m t ih =>
    intro st
    simp only [List.foldl_cons]
    exact le_trans (urlStep_length_ge sl st m) (ih _)

theorem urlPass_length_ge (s : List Char) (M : Matcher) :
    s.length ≤ (urlPass s M).length := by
  simp only [urlPass]
  exact foldl_urlStep_length_ge _ _ (s, 0)

theorem foldl_urlPass_length_ge :
    ∀ (l : List Matcher) (s : List Char), s.length ≤ (l.foldl urlPass s).length := by
  intro l
  induction l with
  | nil => intro s; simp
  | cons M t ih =>
    intro s
    simp only [List.foldl_cons]
    exact le_trans (urlPass_length_ge s M) (ih _)

/-- The scanning counters agree with the declarative per-position counts. -/
theorem tagCounts_eq_counts : ∀ (s : List Char),
    tagCounts s = (openingTokenCount s, closingTokenCount s) := by
  intro s
  induction s with
  | nil => rfl
  | cons c rest ih =>
    by_cases hc : c = '<'
    · subst hc
      cases ht : tagTokenAt rest with
      | none =>
        simp [tagCounts, openingTokenCount, closingTokenCount, suffixes,
              List.countP_cons, isOpeningTokenSuffix, isClosingTokenSuffix, ht, ih]
      | some b =>
        cases b <;>
          simp [tagCounts, openingTokenCount, closingTokenCount, suffixes,
                List.countP_cons, isOpeningTokenSuffix, isClosingTokenSuffix, ht, ih,
                Prod.ext_iff]
    · simp [tagCounts, openingTokenCount, closingTokenCount, suffixes,
            List.countP_cons, isOpeningTokenSuffix, isClosingTokenSuffix, hc, ih]

/-- A pass whose pattern finds no matches leaves the string unchanged. -/
theorem mdPass_no_matches (b : Bool) (s : List Char) (p : Matcher × List Char)
    (h : scanAll p.1 (s.length + 1) none 0 s = []) : mdPass b s p = s := by
  simp [mdPass, h]

theorem foldl_mdPass_no_matches (b : Bool) :
    ∀ (l : List (Matcher × List Char)) (s : List Char),
      (∀ p ∈ l, scanAll p.1 (s.length + 1) none 0 s = []) →
      l.foldl (mdPass b) s = s := by
  intro l
  induction l with
  | nil => intro s _; rfl
  | cons p t ih =>
    intro s h
    simp only [List.foldl_cons]
    rw [mdPass_no_matches b s p (h p (List.mem_cons_self p t))]
    exact ih s fun p' hp' => h p' (List.mem_cons_of_mem _ hp')

/-- Without a `>` no alphanumeric run can reach its closing `>`. -/
theorem alnumThenGt_no_gt : ∀ (cs : List Char), '>' ∉ cs → alnumThenGt cs = false := by
  intro cs
  induction cs with
  | nil => intro _; rfl
  | cons c rest ih =>
    intro h
    simp only [List.mem_cons, not_or] at h
    have h2 := h.2
    have hhead : ¬ (rest.head? = some '>') := by
      cases rest with
      | nil => simp
      | cons r rs =>
        simp only [List.head?_cons, Option.some.injEq]
        intro hr
        subst hr
        simp at h2
    simp [alnumThenGt, ih h2, hhead]

/-- Without a `>` there is no token. -/
theorem tagTokenAt_no_gt : ∀ (cs : List Char), '>' ∉ cs → tagTokenAt cs = none := by
  intro cs h
  rw [tagTokenAt.eq_def]
  split
  · rename_i rest
    rw [alnumThenGt_no_gt rest (by simp only [List.mem_cons, not_or] at h; exact h.2)]
    rfl
  · rw [alnumThenGt_no_gt cs h]
    rfl

/-- Without a `<` both counters stay zero. -/
theorem tagCounts_no_lt : ∀ (s : List Char), '<' ∉ s → tagCounts s = (0, 0) := by
  intro s
  induction s with
  | nil => intro _; rfl
  | cons c rest ih =>
    intro h
    simp only [List.mem_cons, not_or] at h
    simp [tagCounts, Ne.symm h.1, ih h.2]

/-- Without a `>` both counters stay zero. -/
theorem tagCounts_no_gt : ∀ (s : List Char), '>' ∉ s → tagCounts s = (0, 0) := by
  intro s
  induction s with
  | nil => intro _; rfl
  | cons c rest ih =>
    intro h
    simp only [List.mem_cons, not_or] at h
    have ht := tagTokenAt_no_gt rest h.2
    simp [tagCounts, ht, ih h.2]

/-- A string lacking `<` or lacking `>` trips no tag imbalance. -/
theorem isTagIntersectionL_no_angle (s : List Char) (h : '<' ∉ s ∨ '>' ∉ s) :
    isTagIntersectionL s = false := by
  cases h with
  | inl h => simp [isTagIntersectionL, tagCounts_no_lt s h]
  | inr h => simp [isTagIntersectionL, tagCounts_no_gt s h]

/-! ## Claims -/

/-- C1, counterexample: `applyMarkdown "*a <b c*" false` does NOT return the
input unchanged — the captured content `"a <b c"` holds no complete
`TAG_PATTERN` token (the token needs a closing `>`), so the guard does not
fire and the span is replaced. -/
theorem c1_claim_false : ¬ (applyMarkdown exTagless false = exTagless) := by decide

/-- C1, amended: `applyMarkdown "*a <b c*" false` returns `"<b>a <b c</b>"`
(the guard does not fire on `"a <b c"`); the guard does fire, and the input
is returned unchanged, when the captured content holds a complete unbalanced
tag, as in `applyMarkdown "*a <b> c*" false`. -/
theorem c1_tag_guard :
    applyMarkdown exTagless false = exTaglessOut ∧
    applyMarkdown exTagged false = exTagged :=
  ⟨by decide, by decide⟩

set_option maxRecDepth 8000 in
/-- C2, code bug: the Tox-ID pattern's class `[a-zA-Z\\d]` (raw string, so
`\\` is a literal backslash and `d` a letter) excludes the digits, hence a
`tox:` URI of 76 digits is not matched by any URL pattern and `highlightURL`
leaves it unchanged, while one of 76 letters is wrapped. -/
theorem c2_tox_id_digits_not_matched :
    highlightURL toxDigitsMsg = toxDigitsMsg ∧
    highlightURL toxLettersMsg = toxLettersWrapped :=
  ⟨by decide, by decide⟩

/-- C3: `isTagIntersection` returns true exactly when the number of closing
tag-name tokens (those starting with `/`) differs from the number of opening
ones, tokens being counted at every position of the string. -/
theorem c3_tag_counts (s : String) :
    isTagIntersection s = true ↔
      closingTokenCount s.toList ≠ openingTokenCount s.toList := by
  simp only [isTagIntersection, isTagIntersectionL, tagCounts_eq_counts s.toList]
  simp [ne_comm]

/-- C4: an emphasis delimiter adjacent to non-whitespace on its outside never
matches — a single, double or fenced pattern fails when the preceding
character is not whitespace, a successful single or double match always ends
before end-of-string or whitespace — and in particular
`applyMarkdown "a*bold*b" false = "a*bold*b"`. -/
theorem c4_boundary_rule :
    (∀ (d pc : Char) (cs : List Char), isSpaceUcp pc = false →
        singleSignRun d (some pc) cs = none) ∧
    (∀ (d pc : Char) (cs : List Char), isSpaceUcp pc = false →
        doubleSignRun d (some pc) cs = none) ∧
    (∀ (pc : Char) (cs : List Char), isSpaceUcp pc = false →
        codeRun (some pc) cs = none) ∧
    (∀ (d : Char) (pc : Option Char) (cs f g r : List Char),
        singleSignRun d pc cs = some (f, g, r) → closeAheadOk r = true) ∧
    (∀ (d : Char) (pc : Option Char) (cs f g r : List Char),
        doubleSignRun d pc cs = some (f, g, r) → closeAheadOk r = true) ∧
    applyMarkdown exAdj false = exAdj :=
  ⟨singleSignRun_prev_not_space, doubleSignRun_prev_not_space, codeRun_prev_not_space,
   fun _ _ _ _ _ _ h => (singleSignRun_some h).2,
   fun _ _ _ _ _ _ h => (doubleSignRun_some h).2, by decide⟩

/-- Witness for C4 at concrete inputs. -/
theorem c4_boundary_rule_witness :
    isSpaceUcp 'x' = false ∧ singleSignRun '*' (some 'x') exBold.toList = none ∧
    closeAheadOk [] = true :=
  ⟨by decide, c4_boundary_rule.1 '*' 'x' exBold.toList (by decide),
   c4_boundary_rule.2.2.2.1 '*' none ['*', 'a', '*'] ['*', 'a', '*'] ['a'] [] (by decide)⟩

/-- C5: with `showFormattingSymbols = false` the substituted text is the inner
group (delimiters stripped), with `true` it is the full match including the
delimiters. -/
theorem c5_formatting_symbols :
    applyMarkdown exBold false = exBoldPlain ∧ applyMarkdown exBold true = exBoldKept :=
  ⟨by decide, by decide⟩

/-- C6: distinct patterns matching in the same message are each wrapped in
their own tag, offsets accumulating across replacements. -/
theorem c6_multiple_patterns : applyMarkdown exItU false = exItUOut := by decide

/-- C7: when no markdown pattern matches anywhere in the message,
`applyMarkdown` is the identity for both values of `showFormattingSymbols`. -/
theorem c7_no_delimiters_identity (s : String) (b : Bool)
    (h : ∀ p ∈ REGEX_TO_WRAPPER, scanAll p.1 (s.toList.length + 1) none 0 s.toList = []) :
    applyMarkdown s b = s := by
  have hfold := foldl_mdPass_no_matches b REGEX_TO_WRAPPER s.toList h
  show String.mk (applyMarkdownL s.toList b) = s
  rw [applyMarkdownL, hfold]
  rfl

/-- Witness for C7: `"hello world"` holds no markdown-delimiter-shaped
substring and passes through unchanged. -/
theorem c7_witness :
    (∀ p ∈ REGEX_TO_WRAPPER,
        scanAll p.1 (exPlain.toList.length + 1) none 0 exPlain.toList = []) ∧
    applyMarkdown exPlain false = exPlain :=
  ⟨by decide, c7_no_delimiters_identity exPlain false (by decide)⟩

/-- C8: `highlightURL` is not idempotent — re-running it on the wrapped
output of `"www.a"` re-matches the URL-shaped text inside the inserted
`href` attribute and double-wraps it. -/
theorem c8_highlight_not_idempotent :
    ∃ s : String, highlightURL (highlightURL s) ≠ highlightURL s :=
  ⟨exWww, by decide⟩

/-- C9: neither operation ever shortens its input — every accepted
replacement inserts at least as many characters as it removes and skipped
spans are untouched. -/
theorem c9_never_shortens (m : String) (b : Bool) :
    m.length ≤ (highlightURL m).length ∧ m.length ≤ (applyMarkdown m b).length := by
  constructor
  · exact foldl_urlPass_length_ge URL_PATTERNS m.toList
  · have hp : ∀ p ∈ REGEX_TO_WRAPPER, ∀ pc cs f g r, p.1.run pc cs = some (f, g, r) →
        f.length ≤ (argSubst p.2 f).length ∧ f.length ≤ (argSubst p.2 g).length := by
      intro p hp
      simp only [REGEX_TO_WRAPPER, List.mem_cons, List.not_mem_nil, or_false] at hp
      rcases hp with rfl | rfl | rfl | rfl | rfl | rfl | rfl | rfl | rfl | rfl
      · exact single_pair_ins_ok '/' wrapI.toList 7 (by omega) argSubst_wrapI_length
      · exact single_pair_ins_ok '*' wrapB.toList 7 (by omega) argSubst_wrapB_length
      · exact single_pair_ins_ok '_' wrapU.toList 7 (by omega) argSubst_wrapU_length
      · exact single_pair_ins_ok '~' wrapS.toList 7 (by omega) argSubst_wrapS_length
      · exact single_pair_ins_ok btChar wrapCode.toList 40 (by omega) argSubst_wrapCode_length
      · exact double_pair_ins_ok '*' wrapB.toList 7 (by omega) argSubst_wrapB_length
      · exact double_pair_ins_ok '/' wrapI.toList 7 (by omega) argSubst_wrapI_length
      · exact double_pair_ins_ok '_' wrapU.toList 7 (by omega) argSubst_wrapU_length
      · exact double_pair_ins_ok '~' wrapS.toList 7 (by omega) argSubst_wrapS_length
      · exact code_pair_ins_ok
    exact foldl_mdPass_length_ge b REGEX_TO_WRAPPER m.toList hp

/-- C10: a string without `<` (or without `>`) can hold no tag-name token, so
`isTagIntersection` is false on it, and a markdown candidate whose captured
text has no `<` is never skipped: its loop step is exactly the replacing
step. -/
theorem c10_no_angle_no_skip :
    (∀ s : String, ('<' ∉ s.toList ∨ '>' ∉ s.toList) → isTagIntersection s = false) ∧
    (∀ (w : List Char) (b : Bool) (st : List Char × Int) (m : UMatch),
        ('<' ∉ (if b then m.full else m.grp)) → mdStep w b st m = mdReplaceStep w b st m) := by
  constructor
  · intro s h
    exact isTagIntersectionL_no_angle s.toList h
  · intro w b st m h
    have hT : isTagIntersectionL (if b then m.full else m.grp) = false :=
      isTagIntersectionL_no_angle _ (Or.inl h)
    simp [mdStep, hT]

/-- Witness for C10 at a concrete angle-bracket-free string. -/
theorem c10_witness :
    ('<' ∉ exPlain.toList ∨ '>' ∉ exPlain.toList) ∧ isTagIntersection exPlain = false :=
  ⟨Or.inl (by decide), c10_no_angle_no_skip.1 exPlain (Or.inl (by decide))⟩

end TextFormatter
